import Mathlib

/-!
Verification of the schema-driven SQL write pipeline of the
energy-label log server (`src/app/db.ts`).

The TypeScript source is shallowly embedded: the schema description
language (`DBTypes`, `Tables`, `Schema`), the sanitizer, the
surrogate-key bank, the generic schema traversal `traverseSchema` and
its five instantiations (`insertRun`, `getKeys`, `compileTables`,
`dropTables`, `initKeys`), and a pure model of the transactional query
executor `DB.query`.  JavaScript strings become Lean `String`,
JavaScript objects keyed by table name become functions
`Tables → Option _`, and the mutable surrogate-key state is threaded
explicitly through the traversal.
-/

namespace EnergyLabel

/-- The single-quote character (code 39). -/
def quoteC : Char := Char.ofNat 39

/-- The backslash character (code 92). -/
def backC : Char := Char.ofNat 92

/-- The hash character (code 35), the separator of `createCacheKey`. -/
def hashC : Char := Char.ofNat 35

/-- One-character string holding a single quote. -/
def quoteS : String := String.mk [quoteC]

/-- JavaScript `Array.prototype.join(sep)`. -/
def joinSep (sep : String) : List String → String
  | [] => ""
  | [x] => x
  | x :: y :: xs => x ++ sep ++ joinSep sep (y :: xs)

/-- The closed set of table names (`enum Tables` in the source). -/
inductive Tables : Type where
  | PluginName | Plugin | BrowserName | Browser | Domain | ErrorMessage | Url | Fact
deriving DecidableEq

/-- The string value of each `Tables` enum member. -/
def tname : Tables → String
  | .PluginName => "PluginName"
  | .Plugin => "Plugin"
  | .BrowserName => "BrowserName"
  | .Browser => "Browser"
  | .Domain => "Domain"
  | .ErrorMessage => "ErrorMessage"
  | .Url => "Url"
  | .Fact => "Fact"

/-- The list of all table names. -/
def allTables : List Tables :=
  [.PluginName, .Plugin, .BrowserName, .Browser, .Domain, .ErrorMessage, .Url, .Fact]

/-- The record fields of a `Run` (the keys usable as `runkey`). -/
inductive RunKey : Type where
  | score | statusCode | errorMessage | pluginVersion | pluginName
  | extensionVersion | browserVersion | browserName | path | url
deriving DecidableEq

/-- An input record (the `Run` type of `energy-label-types`):
`score` and `statusCode` are numbers, `errorMessage` is optional text,
the remaining fields are text. -/
structure Run : Type where
  score : Int
  statusCode : Int
  errorMessage : Option String
  pluginVersion : String
  pluginName : String
  extensionVersion : String
  browserVersion : String
  browserName : String
  path : String
  url : String
deriving DecidableEq

/-- Reading `run[key]` as JavaScript sees it: numbers are stringified
(as `valueOrNull` and `join` both do via `String(...)`), an absent
optional field is `none`. -/
def getRun (r : Run) : RunKey → Option String
  | .score => some (toString r.score)
  | .statusCode => some (toString r.statusCode)
  | .errorMessage => r.errorMessage
  | .pluginVersion => some r.pluginVersion
  | .pluginName => some r.pluginName
  | .extensionVersion => some r.extensionVersion
  | .browserVersion => some r.browserVersion
  | .browserName => some r.browserName
  | .path => some r.path
  | .url => some r.url

/-- The JavaScript `key in run` test: every field of a parsed `Run` is
present except an absent optional `errorMessage`. -/
def runHas (r : Run) : RunKey → Bool
  | .errorMessage => r.errorMessage.isSome
  | _ => true

/-- `sanitize` on character lists: `String.prototype.replace` with a
string pattern replaces only the first occurrence of the pattern. -/
def sanitizeChars : List Char → List Char
  | [] => []
  | c :: cs => if c = quoteC then backC :: quoteC :: cs else c :: sanitizeChars cs

/-- `sanitize`: the source calls `String.prototype.replace` with the
single-quote string as pattern and backslash-quote as replacement,
which rewrites the first occurrence only. -/
def sanitize (s : String) : String := String.mk (sanitizeChars s.data)

/-- `valueOrNull`: `NULL` for `undefined`/`null`, otherwise the
sanitized value wrapped in single quotes. -/
def valueOrNull (value : Option String) : String :=
  match value with
  | none => "NULL"
  | some s => quoteS ++ sanitize s ++ quoteS

/-- State of `SurrogateKeyBank`: the content-hash cache, the per-table
`next_id` counters, and the list of scheduled `setTimeout` evictions
(cache key, delay in milliseconds). -/
structure Bank : Type where
  cache : String → Option Nat
  keys : Tables → Nat
  pending : List (String × Nat)

/-- The bank at construction: empty cache, all counters zero. -/
def bankInit : Bank := ⟨fun _ => none, fun _ => 0, []⟩

namespace Bank

/-- `SurrogateKeyBank.set(key, value)`: overwrite `next_id[key]`. -/
def set (key : Tables) (value : Nat) (b : Bank) : Bank :=
  { b with keys := fun t => if t = key then value else b.keys t }

/-- `SurrogateKeyBank.requestKey(key, value)`: on a cache hit return the
cached id unchanged; on a miss pre-increment `next_id[key]`, store the
new id under `key + value`, schedule eviction after 100000 ms, and
return the new id with `hit = false`. -/
def requestKey (key : Tables) (value : String) (b : Bank) : (Nat × Bool) × Bank :=
  let cacheKey := tname key ++ value
  match b.cache cacheKey with
  | some v => ((v, true), b)
  | none =>
      let newKey := b.keys key + 1
      ((newKey, false),
        { cache := fun s => if s = cacheKey then some newKey else b.cache s
          keys := fun t => if t = key then newKey else b.keys t
          pending := (cacheKey, 100000) :: b.pending })

end Bank

/-- An operation on the bank: a `requestKey` call or a `set` call. -/
inductive BankOp : Type where
  | req : Tables → String → BankOp
  | assign : Tables → Nat → BankOp

/-- Apply one bank operation, keeping only the resulting state. -/
def applyOp (b : Bank) : BankOp → Bank
  | .req t v => (Bank.requestKey t v b).2
  | .assign t n => Bank.set t n b

/-- Apply a sequence of `requestKey` calls (table and content key). -/
def applyReqs (b : Bank) : List (Tables × String) → Bank
  | [] => b
  | (t, v) :: rest => applyReqs (Bank.requestKey t v b).2 rest

mutual
/-- A schema node: `DBTypes.Int`, `DBTypes.Text` or `DBTypes.ForeignKey`
(column name, target table, child key name, inlined child schema,
optional record field). -/
inductive Field : Type where
  | int : String → RunKey → Field
  | text : String → RunKey → Field
  | fk : String → Tables → String → Sch → Option RunKey → Field
/-- A schema: a list of fields (`Schema<T>` in the source). -/
inductive Sch : Type where
  | nil : Sch
  | cons : Field → Sch → Sch
end

/-- A foreign-key node seen as the `parent` argument of the traversal
(`SchemaFK<T>` in the source). -/
structure FKView : Type where
  name : String
  table : Tables
  child_key : String
  child : Sch
  optional : Option RunKey

/-- Child schema of the `ErrorMessage` dimension. -/
def errorMessageChild : Sch := .cons (.text "error_message" .errorMessage) .nil

/-- Child schema of the `PluginName` dimension. -/
def pluginNameChild : Sch := .cons (.text "name" .pluginName) .nil

/-- Child schema of the `Plugin` dimension. -/
def pluginChild : Sch :=
  .cons (.text "version" .pluginVersion)
    (.cons (.text "extention_version" .extensionVersion)
      (.cons (.fk "plugin_name_id" .PluginName "id" pluginNameChild none) .nil))

/-- Child schema of the `BrowserName` dimension. -/
def browserNameChild : Sch := .cons (.text "browser_name" .browserName) .nil

/-- Child schema of the `Browser` dimension. -/
def browserChild : Sch :=
  .cons (.text "version" .browserVersion)
    (.cons (.fk "browser_name_id" .BrowserName "id" browserNameChild none) .nil)

/-- Child schema of the `Domain` dimension. -/
def domainChild : Sch := .cons (.text "domain" .url) .nil

/-- Child schema of the `Url` dimension. -/
def urlChild : Sch :=
  .cons (.text "path" .path)
    (.cons (.fk "domain_id" .Domain "id" domainChild none) .nil)

/-- The process-wide schema constant (`const schema: Schema<Run>`). -/
def schema : Sch :=
  .cons (.int "score" .score)
    (.cons (.int "status_code" .statusCode)
      (.cons (.fk "error_message" .ErrorMessage "id" errorMessageChild (some .errorMessage))
        (.cons (.fk "plugin_id" .Plugin "id" pluginChild none)
          (.cons (.fk "browser_id" .Browser "id" browserChild none)
            (.cons (.fk "url_id" .Url "id" urlChild none) .nil)))))

/-- `dummyParent`: the fact table viewed as a foreign-key node. -/
def dummyParent : FKView := ⟨"fact", .Fact, "id", schema, none⟩

/-- The per-record map of known dimension ids
(`Results<number | undefined>`). -/
def SK : Type := Tables → Option Nat

/-- Update one entry of the surrogate-key map. -/
def updSK (sk : SK) (t : Tables) (v : Nat) : SK :=
  fun x => if x = t then some v else sk x

/-- The empty surrogate-key map (no lookup results). -/
def emptySK : SK := fun _ => none

/-- Column names of a schema (`schema.map((field) => field.name)`). -/
def fieldNames : Sch → List String
  | .nil => []
  | .cons (.int n _) fs => n :: fieldNames fs
  | .cons (.text n _) fs => n :: fieldNames fs
  | .cons (.fk n _ _ _ _) fs => n :: fieldNames fs

/-- Rendered values of a schema: leaf columns through `valueOrNull` of
the record field, foreign keys through `valueOrNull` of the known
dimension id. -/
def fieldValues : Sch → Run → SK → List String
  | .nil, _, _ => []
  | .cons (.int _ k) fs, r, sk => valueOrNull (getRun r k) :: fieldValues fs r sk
  | .cons (.text _ k) fs, r, sk => valueOrNull (getRun r k) :: fieldValues fs r sk
  | .cons (.fk _ t _ _ _) fs, r, sk =>
      valueOrNull ((sk t).map toString) :: fieldValues fs r sk

/-- `keysAndValues(schema, run, surrogateKeys)`. -/
def keysAndValues (s : Sch) (run : Run) (surrogateKeys : SK) :
    List String × List String :=
  (fieldNames s, fieldValues s run surrogateKeys)

mutual
/-- One component of the content hash: a leaf contributes the raw field
value (absent renders as the empty string, as `join` does), a foreign
key contributes the hash of its child schema. -/
def cacheKeyF (run : Run) : Field → String
  | .int _ k => ((getRun run k).getD "")
  | .text _ k => ((getRun run k).getD "")
  | .fk _ _ _ child _ => joinSep (String.mk [hashC]) (cacheKeyL run child)
/-- The components of the content hash of a schema, in schema order. -/
def cacheKeyL (run : Run) : Sch → List String
  | .nil => []
  | .cons f fs => cacheKeyF run f :: cacheKeyL run fs
end

/-- `createCacheKey(schema, run)`: the components joined by the hash
separator. -/
def createCacheKey (s : Sch) (run : Run) : String :=
  joinSep (String.mk [hashC]) (cacheKeyL run s)

/-- The record fields of the leaves of a schema, in schema order,
recursing through foreign keys. -/
def leafKeys : Sch → List RunKey
  | .nil => []
  | .cons (.int _ k) fs => k :: leafKeys fs
  | .cons (.text _ k) fs => k :: leafKeys fs
  | .cons (.fk _ _ _ child _) fs => leafKeys child ++ leafKeys fs

/-- The rendered leaf value of one record field as it enters the
content hash (absent field renders as the empty string). -/
def leafStr (r : Run) (k : RunKey) : String := (getRun r k).getD ""

/-- Every foreign-key subtree of the schema contains at least one leaf
column (true of the concrete schema; needed for hash flattening). -/
def goodFK : Sch → Bool
  | .nil => true
  | .cons (.fk _ _ _ child _) fs =>
      (!(leafKeys child).isEmpty) && goodFK child && goodFK fs
  | .cons _ fs => goodFK fs

/-- The return type of the traversal: a JavaScript object keyed by
table name (`TraverseReturn = { [key in Tables]?: string }`). -/
def TraverseReturn : Type := Tables → Option String

/-- The empty object. -/
def emptyTR : TraverseReturn := fun _ => none

/-- A one-entry object, as the emitters build. -/
def single (t : Tables) (s : String) : TraverseReturn :=
  fun x => if x = t then some s else none

/-- JavaScript object spread: the keys of the second object overwrite
those of the first. -/
def override (a b : TraverseReturn) : TraverseReturn :=
  fun t => match b t with
    | some s => some s
    | none => a t

/-- The four parameters of `traverseSchema` plus the `in` test used by
the optional-field guard; `σ` is the mutable state threaded through
`condition` (the `options` object for `insertRun`, nothing for the pure
emitters). -/
structure Walker (V σ : Type) : Type where
  fact : Sch → FKView → V → σ → TraverseReturn
  dimension : Sch → FKView → V → σ → TraverseReturn
  condition : Sch → FKView → V → σ → Bool × σ
  hasKey : RunKey → V → Bool
  allwaysExtend : Bool

/-- The optional-field guard
`allwaysExtend || field.optional === undefined || field.optional in value`. -/
def extendOk (w : Walker V σ) (v : V) (opt : Option RunKey) : Bool :=
  w.allwaysExtend ||
    match opt with
    | none => true
    | some k => w.hasKey k v

mutual
/-- The loop body of `traverseSchema` for one field: non-FK fields are
skipped; an FK field is entered when the optional guard and `condition`
both pass, in which case the child subtree is traversed and the
`dimension` emitter runs at this node after the children. -/
def traverseField (w : Walker V σ) (v : V) : Field → σ → TraverseReturn × σ
  | .int _ _, st => (emptyTR, st)
  | .text _ _, st => (emptyTR, st)
  | .fk n t ck child opt, st =>
      if extendOk w v opt then
        let c := w.condition child ⟨n, t, ck, child, opt⟩ v st
        if c.1 then
          let pc := traverseFields w v child c.2
          (override pc.1 (w.dimension child ⟨n, t, ck, child, opt⟩ v pc.2), pc.2)
        else (emptyTR, c.2)
      else (emptyTR, st)
/-- The `for (const field of schema)` loop of `traverseSchema`,
spreading each subtree result over the accumulated one. -/
def traverseFields (w : Walker V σ) (v : V) : Sch → σ → TraverseReturn × σ
  | .nil, st => (emptyTR, st)
  | .cons f fs, st =>
      let p1 := traverseField w v f st
      let p2 := traverseFields w v fs p1.2
      (override p1.1 p2.1, p2.2)
end

/-- `traverseSchema(...)(schema, parent, value, options)`: traverse the
children, then spread the `fact` emission of the current level last. -/
def traverseSchema (w : Walker V σ) (s : Sch) (parent : FKView) (v : V) (st : σ) :
    TraverseReturn × σ :=
  let p := traverseFields w v s st
  (override p.1 (w.fact s parent v p.2), p.2)

/-- `INSERT INTO t (keys) VALUES (values)` in the exact source format. -/
def insertStmt (t : Tables) (keys values : List String) : String :=
  "INSERT INTO " ++ tname t ++ " (" ++ joinSep "," keys ++ ") VALUES (" ++
    joinSep "," values ++ ")"

/-- The `insertRun` walker: the fact emitter inserts the plain columns;
the dimension emitter appends the child key column holding the
dimension id; the condition consults the lookup results and the
surrogate-key bank. -/
def insertWalker : Walker Run (SK × Bank) where
  fact := fun s p run st =>
    let kv := keysAndValues s run st.1
    single p.table (insertStmt p.table kv.1 kv.2)
  dimension := fun s p run st =>
    let kv := keysAndValues s run st.1
    single p.table
      (insertStmt p.table (kv.1 ++ [p.child_key])
        (kv.2 ++ [valueOrNull ((st.1 p.table).map toString)]))
  condition := fun s p run st =>
    if p.table = Tables.Fact then (true, st)
    else
      match st.1 p.table with
      | some _ => (false, st)
      | none =>
          let q := Bank.requestKey p.table (createCacheKey s run) st.2
          (!q.1.2, (updSK st.1 p.table q.1.1, q.2))
  hasKey := fun k r => runHas r k
  allwaysExtend := false

/-- `insertRun(schema, parent, run, [surrogateKeys, bank])`. -/
def insertRun (s : Sch) (parent : FKView) (run : Run) (st : SK × Bank) :
    TraverseReturn × (SK × Bank) :=
  traverseSchema insertWalker s parent run st

/-- The inner helper of `innerJoin`: one `INNER JOIN` clause per
foreign-key field, followed by the clauses of its child subtree. -/
def innerJoinAux : Sch → String → List String
  | .nil, _ => []
  | .cons (.fk n t ck child _) fs, tbl =>
      ("INNER JOIN " ++ tname t ++ " ON " ++ tbl ++ "." ++ n ++ "=" ++
          tname t ++ "." ++ ck) ::
        (innerJoinAux child (tname t) ++ innerJoinAux fs tbl)
  | .cons (.int _ _) fs, tbl => innerJoinAux fs tbl
  | .cons (.text _ _) fs, tbl => innerJoinAux fs tbl

/-- `innerJoin(schema, table)`: the table followed by its join clauses,
joined by single spaces. -/
def innerJoin (s : Sch) (t : Tables) : String :=
  joinSep " " (tname t :: innerJoinAux s (tname t))

/-- The inner helper of `joinWhere`: one equality per leaf column
against the record value through `valueOrNull`, recursing through
foreign keys into the child table. -/
def joinWhereAux (r : Run) : Sch → String → List String
  | .nil, _ => []
  | .cons (.int n k) fs, tbl =>
      (tbl ++ "." ++ n ++ "=" ++ valueOrNull (getRun r k)) :: joinWhereAux r fs tbl
  | .cons (.text n k) fs, tbl =>
      (tbl ++ "." ++ n ++ "=" ++ valueOrNull (getRun r k)) :: joinWhereAux r fs tbl
  | .cons (.fk _ t _ child _) fs, tbl =>
      joinWhereAux r child (tname t) ++ joinWhereAux r fs tbl

/-- `joinWhere(schema, table, value)`. -/
def joinWhere (s : Sch) (t : Tables) (r : Run) : String :=
  joinSep " AND " (joinWhereAux r s (tname t))

/-- `getKeysQuery(schema, table, id_name, value)`. -/
def getKeysQuery (s : Sch) (t : Tables) (idName : String) (r : Run) : String :=
  "SELECT MAX(" ++ tname t ++ "." ++ idName ++ ") AS id FROM " ++
    innerJoin s t ++ " WHERE " ++ joinWhere s t r

/-- The `getKeys` walker: nothing for the fact, one lookup query per
dimension, unconditional recursion, optional dimensions skipped when
the record field is absent. -/
def getKeysWalker : Walker Run Unit where
  fact := fun _ _ _ _ => emptyTR
  dimension := fun s p r _ => single p.table (getKeysQuery s p.table p.child_key r)
  condition := fun _ _ _ st => (true, st)
  hasKey := fun k r => runHas r k
  allwaysExtend := false

/-- `getKeys(schema, parent, run, {})`. -/
def getKeys (s : Sch) (parent : FKView) (run : Run) : TraverseReturn :=
  (traverseSchema getKeysWalker s parent run ()).1

/-- The column definition of one field in `CREATE TABLE`. -/
def columnDefs : Sch → List String
  | .nil => []
  | .cons (.int n _) fs => (n ++ " INT UNSIGNED") :: columnDefs fs
  | .cons (.text n _) fs => (n ++ " TINYTEXT") :: columnDefs fs
  | .cons (.fk n _ _ _ _) fs => (n ++ " INT UNSIGNED") :: columnDefs fs

/-- `createTable(hasId)`: the `CREATE TABLE` statement; the engine
suffix depends on the `--mariadb-column-store` option, modelled by the
boolean `columnStore`. -/
def createTable (hasId : Bool) (columnStore : Bool) (s : Sch) (p : FKView) : TraverseReturn :=
  single p.table
    ("CREATE TABLE " ++ tname p.table ++ "( " ++
      (if hasId then p.child_key ++ " INT UNSIGNED," else "") ++
      joinSep "," (columnDefs s) ++ ")" ++
      (if columnStore then "ENGINE = ColumnStore;" else ";"))

/-- The `compileTables` walker (the fact table has no id column). -/
def compileTablesWalker (columnStore : Bool) : Walker Unit Unit where
  fact := fun s p _ _ => createTable false columnStore s p
  dimension := fun s p _ _ => createTable true columnStore s p
  condition := fun _ _ _ st => (true, st)
  hasKey := fun _ _ => false
  allwaysExtend := true

/-- `compileTables(schema, dummyParent, {}, {})`. -/
def compileTables (columnStore : Bool) (s : Sch) (parent : FKView) : TraverseReturn :=
  (traverseSchema (compileTablesWalker columnStore) s parent () ()).1

/-- `createDropTableQuery`. -/
def createDropTableQuery (p : FKView) : TraverseReturn :=
  single p.table ("DROP TABLE " ++ tname p.table ++ ";")

/-- The `dropTables` walker. -/
def dropTablesWalker : Walker Unit Unit where
  fact := fun _ p _ _ => createDropTableQuery p
  dimension := fun _ p _ _ => createDropTableQuery p
  condition := fun _ _ _ st => (true, st)
  hasKey := fun _ _ => false
  allwaysExtend := true

/-- `dropTables(schema, dummyParent, {}, {})`. -/
def dropTables (s : Sch) (parent : FKView) : TraverseReturn :=
  (traverseSchema dropTablesWalker s parent () ()).1

/-- The `initKeys` walker: per dimension, the seeding query
`SELECT COALESCE(MAX(id), 0) AS id FROM t`. -/
def initKeysWalker : Walker Unit Unit where
  fact := fun _ _ _ _ => emptyTR
  dimension := fun _ p _ _ =>
    single p.table ("SELECT COALESCE(MAX(id), 0) AS id FROM " ++ tname p.table)
  condition := fun _ _ _ st => (true, st)
  hasKey := fun _ _ => false
  allwaysExtend := true

/-- `initKeys(schema, dummyParent, {}, {})`. -/
def initKeys (s : Sch) (parent : FKView) : TraverseReturn :=
  (traverseSchema initKeysWalker s parent () ()).1

/-- The entries of a traversal object, enumerated in the fixed table
order (the view of a JavaScript object as a list of key-value pairs). -/
def trEntries (m : TraverseReturn) : List (Tables × String) :=
  allTables.filterMap (fun t => (m t).map (fun s => (t, s)))

/-- Write one emission into an object. -/
def applyEmit (a : TraverseReturn) (e : Tables × String) : TraverseReturn :=
  fun x => if x = e.1 then some e.2 else a x

/-- Replay a list of emissions in order; a later emission for the same
table overwrites an earlier one. -/
def applyEmits (a : TraverseReturn) (l : List (Tables × String)) : TraverseReturn :=
  l.foldl applyEmit a

/-- The last emission for a table in a list of emissions. -/
def lastEmit (t : Tables) (l : List (Tables × String)) : Option String :=
  ((l.filter (fun e => e.1 = t)).getLast?).map (fun e => e.2)

mutual
/-- The chronological list of emissions produced while traversing one
field (mirrors `traverseField` step for step). -/
def traceField (w : Walker V σ) (v : V) : Field → σ → List (Tables × String) × σ
  | .int _ _, st => ([], st)
  | .text _ _, st => ([], st)
  | .fk n t ck child opt, st =>
      if extendOk w v opt then
        let c := w.condition child ⟨n, t, ck, child, opt⟩ v st
        if c.1 then
          let pc := traceFields w v child c.2
          (pc.1 ++ trEntries (w.dimension child ⟨n, t, ck, child, opt⟩ v pc.2), pc.2)
        else ([], c.2)
      else ([], st)
/-- The chronological list of emissions of a field list. -/
def traceFields (w : Walker V σ) (v : V) : Sch → σ → List (Tables × String) × σ
  | .nil, st => ([], st)
  | .cons f fs, st =>
      let p1 := traceField w v f st
      let p2 := traceFields w v fs p1.2
      (p1.1 ++ p2.1, p2.2)
end

/-- The chronological list of emissions of a whole walk, the final
`fact` emission last. -/
def traceSchema (w : Walker V σ) (s : Sch) (parent : FKView) (v : V) (st : σ) :
    List (Tables × String) × σ :=
  let p := traceFields w v s st
  (p.1 ++ trEntries (w.fact s parent v p.2), p.2)

/-! ### C1 — the sanitizer -/

/-- C1: the claim says every single quote is replaced by
backslash-quote.  The code calls `String.prototype.replace` with a
string pattern, which replaces only the first occurrence: on the
two-quote input the result keeps the second quote unescaped, differs
from the all-quotes-escaped string the claim requires, and the emitted
literal `valueOrNull` builds therefore contains an unescaped quote that
terminates it early. -/
theorem sanitize_replaces_only_first :
    sanitize (String.mk [quoteC, quoteC]) = String.mk [backC, quoteC, quoteC] ∧
    sanitize (String.mk [quoteC, quoteC]) ≠ String.mk [backC, quoteC, backC, quoteC] ∧
    valueOrNull (some (String.mk [quoteC, quoteC])) =
      String.mk [quoteC, backC, quoteC, quoteC, quoteC] := by
  refine ⟨by decide, by decide, by decide⟩

/-! ### C3 — `requestKey` -/

/-- C3: `requestKey(table, content_key)` returns the cached id with
`hit = true` and an unchanged bank on a cache hit; on a miss it
increments `next_id[table]`, stores the new id in the cache under
`table + content_key`, schedules eviction of that entry after
100000 ms (100 seconds), and returns the new id with `hit = false`,
leaving every other counter and cache entry unchanged. -/
theorem requestKey_spec (t : Tables) (v : String) (b : Bank) :
    (∀ id, b.cache (tname t ++ v) = some id →
      Bank.requestKey t v b = ((id, true), b)) ∧
    (b.cache (tname t ++ v) = none →
      (Bank.requestKey t v b).1 = (b.keys t + 1, false) ∧
      (Bank.requestKey t v b).2.keys t = b.keys t + 1 ∧
      (∀ t2, t2 ≠ t → (Bank.requestKey t v b).2.keys t2 = b.keys t2) ∧
      (Bank.requestKey t v b).2.cache (tname t ++ v) = some (b.keys t + 1) ∧
      (∀ s, s ≠ tname t ++ v → (Bank.requestKey t v b).2.cache s = b.cache s) ∧
      (Bank.requestKey t v b).2.pending = (tname t ++ v, 100000) :: b.pending) := by
  constructor
  · intro id h
    simp [Bank.requestKey, h]
  · intro h
    refine ⟨?_, ?_, ?_, ?_, ?_, ?_⟩ <;>
      simp [Bank.requestKey, h] <;> intro x hx <;> simp [hx]

/-- Witness for C3 at a concrete bank: a miss on the fresh bank, then a
hit on the resulting bank. -/
theorem requestKey_spec_witness :
    (bankInit.cache (tname Tables.Plugin ++ "x") = none ∧
      (Bank.requestKey Tables.Plugin "x" bankInit).1 =
        (bankInit.keys Tables.Plugin + 1, false)) ∧
    ((Bank.requestKey Tables.Plugin "x" bankInit).2.cache
        (tname Tables.Plugin ++ "x") = some 1 ∧
      Bank.requestKey Tables.Plugin "x" (Bank.requestKey Tables.Plugin "x" bankInit).2 =
        ((1, true), (Bank.requestKey Tables.Plugin "x" bankInit).2)) :=
  ⟨⟨rfl, ((requestKey_spec Tables.Plugin "x" bankInit).2 rfl).1⟩,
    ⟨by decide,
      (requestKey_spec Tables.Plugin "x"
        (Bank.requestKey Tables.Plugin "x" bankInit).2).1 1 (by decide)⟩⟩

/-! ### C4 — monotonicity of `next_id` -/

/-- C4 fails as stated: in an interleaving of `requestKey` and `set`
operations, a `set` with a small value makes `next_id[Plugin]`
decrease (from 1 back to 0). -/
theorem set_can_decrease_next_id :
    (applyOp (applyOp bankInit (.req Tables.Plugin "x"))
        (.assign Tables.Plugin 0)).keys Tables.Plugin
      < (applyOp bankInit (.req Tables.Plugin "x")).keys Tables.Plugin := by
  decide

/-- One `requestKey` call never decreases any counter. -/
theorem requestKey_keys_le (t : Tables) (v : String) (b : Bank) (t2 : Tables) :
    b.keys t2 ≤ (Bank.requestKey t v b).2.keys t2 := by
  cases h : b.cache (tname t ++ v) with
  | some id => simp [Bank.requestKey, h]
  | none =>
      by_cases ht : t2 = t
      · subst ht; simp [Bank.requestKey, h]
      · simp [Bank.requestKey, h, ht]

/-- C4 (amended): across any sequence of `requestKey` calls — `set`
operations excluded, since `set` overwrites `next_id` with an
arbitrary value — `next_id[T]` never decreases. -/
theorem next_id_monotone_requestKeys (ops : List (Tables × String)) (b : Bank)
    (t : Tables) : b.keys t ≤ (applyReqs b ops).keys t := by
  induction ops generalizing b with
  | nil => simp [applyReqs]
  | cons op rest ih =>
      calc b.keys t ≤ (Bank.requestKey op.1 op.2 b).2.keys t :=
            requestKey_keys_le op.1 op.2 b t
        _ ≤ (applyReqs (Bank.requestKey op.1 op.2 b).2 rest).keys t := ih _
        _ = (applyReqs b (op :: rest)).keys t := by simp [applyReqs]

/-! ### C7 — seeding with `set` -/

/-- C7: after `set(T, m)`, the first cache-missing `requestKey(T, k)`
returns `m + 1` with `hit = false` — the bank seeded with
`MAX(child_key)` hands out `MAX(child_key) + 1` as the next free id. -/
theorem set_then_requestKey (t : Tables) (m : Nat) (k : String) (b : Bank)
    (h : b.cache (tname t ++ k) = none) :
    (Bank.requestKey t k (Bank.set t m b)).1 = (m + 1, false) := by
  simp [Bank.requestKey, Bank.set, h]

/-- Witness for C7: seed `Browser` with 41 on the fresh bank; the next
`requestKey` returns 42. -/
theorem set_then_requestKey_witness :
    bankInit.cache (tname Tables.Browser ++ "k") = none ∧
    (Bank.requestKey Tables.Browser "k" (Bank.set Tables.Browser 41 bankInit)).1 =
      (42, false) :=
  ⟨rfl, set_then_requestKey Tables.Browser 41 "k" bankInit rfl⟩

/-! ### C5 — the content hash -/

/-- A record whose `pluginVersion` carries an embedded hash character. -/
def runHashA : Run :=
  ⟨10, 0, none, String.mk [Char.ofNat 97, hashC, Char.ofNat 98], "p",
    String.mk [Char.ofNat 99], "bv", "bn", "/x", "u"⟩

/-- A record that differs from `runHashA` on the `pluginVersion` and
`extensionVersion` leaves but hashes identically. -/
def runHashB : Run :=
  ⟨10, 0, none, String.mk [Char.ofNat 97], "p",
    String.mk [Char.ofNat 98, hashC, Char.ofNat 99], "bv", "bn", "/x", "u"⟩

/-- C5 fails as stated: over the `Plugin` dimension subtree the two
records hash to the same string although they disagree on the
`pluginVersion` leaf — `#` inside a leaf value collides with the
separator, so equal hashes do not imply equal leaf values. -/
theorem createCacheKey_hash_collision :
    createCacheKey pluginChild runHashA = createCacheKey pluginChild runHashB ∧
    ¬ (∀ k ∈ leafKeys pluginChild, leafStr runHashA k = leafStr runHashB k) := by
  constructor
  · decide
  · decide

/-- `joinSep` distributes over the append of two nonempty lists. -/
theorem joinSep_append (sep : String) :
    ∀ (l1 l2 : List String), l1 ≠ [] → l2 ≠ [] →
      joinSep sep (l1 ++ l2) = joinSep sep l1 ++ sep ++ joinSep sep l2
  | [], _, h1, _ => absurd rfl h1
  | [x], l2, _, h2 => by
      cases l2 with
      | nil => exact absurd rfl h2
      | cons y ys => simp [joinSep]
  | x :: y :: xs, l2, _, h2 => by
      have ih := joinSep_append sep (y :: xs) l2 (by simp) h2
      have e : joinSep sep ((x :: y :: xs) ++ l2) =
          x ++ sep ++ joinSep sep ((y :: xs) ++ l2) := rfl
      have e2 : joinSep sep (x :: y :: xs) = x ++ sep ++ joinSep sep (y :: xs) := rfl
      rw [e, ih, e2]
      simp [String.append_assoc]

/-- A schema with `goodFK` and at least one field has at least one
leaf. -/
theorem leafKeys_ne_nil : ∀ (f : Field) (fs : Sch),
    goodFK (.cons f fs) = true → leafKeys (.cons f fs) ≠ []
  | .int _ _, fs, _ => by simp [leafKeys]
  | .text _ _, fs, _ => by simp [leafKeys]
  | .fk _ _ _ child _, fs, h => by
      simp only [goodFK, Bool.and_eq_true, Bool.not_eq_eq_eq_not, Bool.not_true] at h
      simp only [leafKeys]
      intro hc
      rcases List.append_eq_nil.mp hc with ⟨hc1, _⟩
      rw [hc1] at h
      simp [List.isEmpty] at h

/-- The content hash of a `goodFK` schema is the flat list of its leaf
values joined by the separator: nested foreign-key hashes flatten away. -/
theorem cacheKey_flatten (r : Run) :
    ∀ (s : Sch), goodFK s = true →
      createCacheKey s r = joinSep (String.mk [hashC]) ((leafKeys s).map (leafStr r))
  | .nil, _ => rfl
  | .cons f fs, h => by
      cases f with
      | int n k =>
          have hfs : goodFK fs = true := by simpa only [goodFK] using h
          cases fs with
          | nil => simp [createCacheKey, cacheKeyL, cacheKeyF, leafKeys, leafStr, joinSep]
          | cons f2 fs2 =>
              have ih := cacheKey_flatten r (.cons f2 fs2) hfs
              have hne : leafKeys (.cons f2 fs2) ≠ [] := leafKeys_ne_nil f2 fs2 hfs
              simp only [createCacheKey, cacheKeyL, cacheKeyF, leafKeys, List.map_cons] at ih ⊢
              rw [show (leafStr r k :: List.map (leafStr r) (leafKeys (Sch.cons f2 fs2))) =
                    [leafStr r k] ++ List.map (leafStr r) (leafKeys (Sch.cons f2 fs2)) by simp,
                joinSep_append _ _ _ (by simp) (by simpa using hne),
                ← ih]
              cases hcl : cacheKeyL r (Sch.cons f2 fs2) with
              | nil => simp [cacheKeyL] at hcl
              | cons c cs => simp [joinSep, leafStr]
      | text n k =>
          have hfs : goodFK fs = true := by simpa only [goodFK] using h
          cases fs with
          | nil => simp [createCacheKey, cacheKeyL, cacheKeyF, leafKeys, leafStr, joinSep]
          | cons f2 fs2 =>
              have ih := cacheKey_flatten r (.cons f2 fs2) hfs
              have hne : leafKeys (.cons f2 fs2) ≠ [] := leafKeys_ne_nil f2 fs2 hfs
              simp only [createCacheKey, cacheKeyL, cacheKeyF, leafKeys, List.map_cons] at ih ⊢
              rw [show (leafStr r k :: List.map (leafStr r) (leafKeys (Sch.cons f2 fs2))) =
                    [leafStr r k] ++ List.map (leafStr r) (leafKeys (Sch.cons f2 fs2)) by simp,
                joinSep_append _ _ _ (by simp) (by simpa using hne),
                ← ih]
              cases hcl : cacheKeyL r (Sch.cons f2 fs2) with
              | nil => simp [cacheKeyL] at hcl
              | cons c cs => simp [joinSep, leafStr]
      | fk n t ck child opt =>
          have hfs : goodFK fs = true := by
            simp only [goodFK, Bool.and_eq_true] at h
            exact h.2
          have hch : goodFK child = true := by
            simp only [goodFK, Bool.and_eq_true] at h
            exact h.1.2
          have hchl : leafKeys child ≠ [] := by
            simp only [goodFK, Bool.and_eq_true, Bool.not_eq_eq_eq_not, Bool.not_true] at h
            intro hc
            rw [hc] at h
            simp [List.isEmpty] at h
          have ihc := cacheKey_flatten r child hch
          cases fs with
          | nil =>
              simp only [createCacheKey, cacheKeyL, cacheKeyF, leafKeys, List.append_nil] at ihc ⊢
              simp [joinSep, ← ihc, createCacheKey]
          | cons f2 fs2 =>
              have ih := cacheKey_flatten r (.cons f2 fs2) hfs
              have hne : leafKeys (.cons f2 fs2) ≠ [] := leafKeys_ne_nil f2 fs2 hfs
              simp only [createCacheKey, cacheKeyL, cacheKeyF, leafKeys, List.map_append] at ih ⊢
              rw [joinSep_append _ _ _ (by simpa using hchl) (by simpa using hne), ← ih, ← ihc]
              cases hcl : cacheKeyL r (Sch.cons f2 fs2) with
              | nil => simp [cacheKeyL] at hcl
              | cons c cs => simp [joinSep, createCacheKey]

/-- `joinSep` on character lists. -/
def joinL (sep : List Char) : List (List Char) → List Char
  | [] => []
  | [x] => x
  | x :: y :: xs => x ++ sep ++ joinL sep (y :: xs)

/-- The characters of a joined string are the join of the characters. -/
theorem joinSep_data (sep : String) :
    ∀ (l : List String), (joinSep sep l).data = joinL sep.data (l.map String.data)
  | [] => rfl
  | [x] => rfl
  | x :: y :: xs => by
      have ih := joinSep_data sep (y :: xs)
      simp only [joinSep, joinL, List.map_cons, String.data_append, ih]

/-- Splitting at the first occurrence of a separator character: if the
prefixes avoid it, equal splits have equal parts. -/
theorem sep_split {c : Char} :
    ∀ (a b u v : List Char), c ∉ a → c ∉ b → a ++ c :: u = b ++ c :: v →
      a = b ∧ u = v
  | [], [], _, _, _, _, h => by simpa using h
  | [], d :: b2, u, v, _, hb, h => by
      simp only [List.nil_append, List.cons_append, List.cons.injEq] at h
      exact absurd (h.1 ▸ List.mem_cons_self d b2) (by simpa [← h.1] using hb)
  | d :: a2, [], u, v, ha, _, h => by
      simp only [List.nil_append, List.cons_append, List.cons.injEq] at h
      exact absurd (h.1 ▸ List.mem_cons_self d a2) (by simpa [h.1] using ha)
  | d :: a2, e :: b2, u, v, ha, hb, h => by
      simp only [List.cons_append, List.cons.injEq] at h
      have := sep_split a2 b2 u v (by simp [List.mem_cons] at ha; exact fun hc => ha.2 hc)
        (by simp [List.mem_cons] at hb; exact fun hc => hb.2 hc) h.2
      exact ⟨by rw [h.1, this.1], this.2⟩

/-- Joining with a character that occurs in no component is injective
on lists of the same length. -/
theorem joinL_inj {c : Char} :
    ∀ (l1 l2 : List (List Char)), l1.length = l2.length →
      (∀ x ∈ l1, c ∉ x) → (∀ x ∈ l2, c ∉ x) →
      joinL [c] l1 = joinL [c] l2 → l1 = l2
  | [], [], _, _, _, _ => rfl
  | [x], [y], _, _, _, h => by simpa [joinL] using h
  | [], _ :: _, hl, _, _, _ => by simp at hl
  | _ :: _, [], hl, _, _, _ => by simp at hl
  | [x], _ :: _ :: _, hl, _, _, _ => by simp at hl
  | _ :: _ :: _, [y], hl, _, _, _ => by simp at hl
  | x :: x2 :: xs, y :: y2 :: ys, hl, h1, h2, h => by
      have hx : c ∉ x := h1 x (by simp)
      have hy : c ∉ y := h2 y (by simp)
      have e : x ++ c :: joinL [c] (x2 :: xs) = y ++ c :: joinL [c] (y2 :: ys) := by
        simpa [joinL, List.append_assoc] using h
      have hs := sep_split x y (joinL [c] (x2 :: xs)) (joinL [c] (y2 :: ys)) hx hy e
      have ih := joinL_inj (x2 :: xs) (y2 :: ys) (by simpa using hl)
        (fun z hz => h1 z (List.mem_cons_of_mem x hz))
        (fun z hz => h2 z (List.mem_cons_of_mem y hz)) hs.2
      rw [hs.1, ih]

/-- Pointwise characterisation of equal maps over one list. -/
theorem map_eq_map_pointwise {α β : Type} (f g : α → β) :
    ∀ (l : List α), l.map f = l.map g ↔ ∀ k ∈ l, f k = g k
  | [] => by simp
  | x :: xs => by
      simp only [List.map_cons, List.cons.injEq, map_eq_map_pointwise f g xs,
        List.mem_cons]
      constructor
      · rintro ⟨h1, h2⟩ k (rfl | hk)
        · exact h1
        · exact h2 k hk
      · intro h
        exact ⟨h x (Or.inl rfl), fun k hk => h k (Or.inr hk)⟩

/-- C5 (amended): equal content hashes coincide with agreement on
every leaf exactly for leaf values free of the separator character:
over any dimension subtree in which every foreign-key node has a leaf
(true of the concrete schema) and for records whose rendered leaf
values (an absent optional field renders as the empty string) contain
no `#`, `createCacheKey` yields equal strings iff the two records agree
on the rendered value of every leaf field of the subtree.  The
unamended claim is refuted by `createCacheKey_hash_collision`: a `#`
inside a leaf value makes distinct records collide. -/
theorem createCacheKey_eq_iff (s : Sch) (r1 r2 : Run)
    (hg : goodFK s = true)
    (h1 : ∀ k ∈ leafKeys s, hashC ∉ (leafStr r1 k).data)
    (h2 : ∀ k ∈ leafKeys s, hashC ∉ (leafStr r2 k).data) :
    (createCacheKey s r1 = createCacheKey s r2 ↔
      ∀ k ∈ leafKeys s, leafStr r1 k = leafStr r2 k) := by
  rw [cacheKey_flatten r1 s hg, cacheKey_flatten r2 s hg]
  constructor
  · intro h
    have hd := congrArg String.data h
    rw [joinSep_data, joinSep_data] at hd
    have hsep : (String.mk [hashC]).data = [hashC] := rfl
    rw [hsep] at hd
    have hinj := joinL_inj (((leafKeys s).map (leafStr r1)).map String.data)
      (((leafKeys s).map (leafStr r2)).map String.data)
      (by simp)
      (by intro x hx
          simp only [List.map_map, List.mem_map] at hx
          obtain ⟨k, hk, rfl⟩ := hx
          exact h1 k hk)
      (by intro x hx
          simp only [List.map_map, List.mem_map] at hx
          obtain ⟨k, hk, rfl⟩ := hx
          exact h2 k hk)
      hd
    simp only [List.map_map] at hinj
    intro k hk
    have := (map_eq_map_pointwise _ _ (leafKeys s)).mp hinj k hk
    exact String.ext this
  · intro h
    have : (leafKeys s).map (leafStr r1) = (leafKeys s).map (leafStr r2) :=
      (map_eq_map_pointwise _ _ (leafKeys s)).mpr h
    rw [this]

/-- A record with hash-free leaf values. -/
def runHashADropped : Run := ⟨10, 0, none, "a", "p", "c", "bv", "bn", "/x", "u"⟩

/-- A second record with hash-free leaf values, differing on
`pluginVersion`. -/
def runHashBDropped : Run := ⟨10, 0, none, "b", "p", "c", "bv", "bn", "/x", "u"⟩

/-- Witness for C5 (amended) on the `Plugin` subtree with hash-free
leaf values. -/
theorem createCacheKey_eq_iff_witness :
    goodFK pluginChild = true ∧
    (∀ k ∈ leafKeys pluginChild, hashC ∉ (leafStr runHashADropped k).data) ∧
    (∀ k ∈ leafKeys pluginChild, hashC ∉ (leafStr runHashBDropped k).data) ∧
    (createCacheKey pluginChild runHashADropped =
        createCacheKey pluginChild runHashBDropped ↔
      ∀ k ∈ leafKeys pluginChild,
        leafStr runHashADropped k = leafStr runHashBDropped k) :=
  ⟨by decide, by decide, by decide,
    createCacheKey_eq_iff pluginChild runHashADropped runHashBDropped
      (by decide) (by decide) (by decide)⟩

/-! ### Traversal lemmas for the insert emitter -/

/-- The optional-field guard for the walkers with `allwaysExtend`
false. -/
def optOk (r : Run) : Option RunKey → Bool
  | none => true
  | some k => runHas r k

/-- The guard of the insert walker is the plain optional test. -/
theorem extendOk_insert (r : Run) (opt : Option RunKey) :
    extendOk insertWalker r opt = optOk r opt := by
  cases opt <;> simp [extendOk, insertWalker, optOk]

mutual
/-- Tables that a walk can possibly reach below one field (ignoring
`condition`, honouring the optional guard). -/
def reachF (w : Walker V σ) (v : V) : Field → List Tables
  | .int _ _ => []
  | .text _ _ => []
  | .fk _ t _ child opt => if extendOk w v opt then t :: reachS w v child else []
/-- Tables that a walk can possibly reach in a schema. -/
def reachS (w : Walker V σ) (v : V) : Sch → List Tables
  | .nil => []
  | .cons f fs => reachF w v f ++ reachS w v fs
end

/-- The insert condition never discards an already-known dimension id. -/
theorem insertCondition_preserve (s : Sch) (p : FKView) (r : Run) (st : SK × Bank)
    (t : Tables) (id : Nat) (h : st.1 t = some id) :
    ((insertWalker.condition s p r st).2).1 t = some id := by
  by_cases hf : p.table = Tables.Fact
  · simp [insertWalker, hf, h]
  · cases hsk : st.1 p.table with
    | some v => simp [insertWalker, hf, hsk, h]
    | none =>
        have hne : t ≠ p.table := by
          intro he
          rw [he, hsk] at h
          cases h
        simp [insertWalker, hf, hsk, updSK, hne, h]

mutual
/-- Once the surrogate-key map knows an id for a table, traversing one
field never changes it. -/
theorem insertField_preserve (r : Run) :
    ∀ (f : Field) (st : SK × Bank) (t : Tables) (id : Nat),
      st.1 t = some id → ((traverseField insertWalker r f st).2).1 t = some id
  | .int _ _, _, _, _, h => h
  | .text _ _, _, _, _, h => h
  | .fk n tb ck child opt, st, t, id, h => by
      simp only [traverseField]
      cases hg : extendOk insertWalker r opt with
      | false => simpa [hg] using h
      | true =>
          have hc2 : ((insertWalker.condition child ⟨n, tb, ck, child, opt⟩ r st).2).1 t
              = some id := insertCondition_preserve _ _ r st t id h
          cases hb : (insertWalker.condition child ⟨n, tb, ck, child, opt⟩ r st).1 with
          | false => simpa [hg, hb] using hc2
          | true =>
              simpa [hg, hb] using
                insertFields_preserve r child
                  (insertWalker.condition child ⟨n, tb, ck, child, opt⟩ r st).2 t id hc2
/-- Once the surrogate-key map knows an id for a table, traversing a
schema never changes it. -/
theorem insertFields_preserve (r : Run) :
    ∀ (s : Sch) (st : SK × Bank) (t : Tables) (id : Nat),
      st.1 t = some id → ((traverseFields insertWalker r s st).2).1 t = some id
  | .nil, _, _, _, h => h
  | .cons f fs, st, t, id, h => by
      simp only [traverseFields]
      exact insertFields_preserve r fs _ t id (insertField_preserve r f st t id h)
end

/-- The insert condition leaves the surrogate-key map unchanged at
every table other than the one of the node. -/
theorem insertCondition_sk_off (s : Sch) (p : FKView) (r : Run) (st : SK × Bank)
    (t : Tables) (hne : t ≠ p.table) :
    ((insertWalker.condition s p r st).2).1 t = st.1 t := by
  by_cases hf : p.table = Tables.Fact
  · simp [insertWalker, hf]
  · cases hsk : st.1 p.table with
    | some v => simp [insertWalker, hf, hsk]
    | none => simp [insertWalker, hf, hsk, updSK, hne]

/-- `override` keeps an absent key absent. -/
theorem override_none (a b : TraverseReturn) (t : Tables) (h1 : a t = none)
    (h2 : b t = none) : override a b t = none := by
  simp [override, h1, h2]

/-- The insert dimension emitter writes only the key of its own table. -/
theorem insertDim_off (s : Sch) (p : FKView) (r : Run) (st : SK × Bank) (x : Tables)
    (hx : x ≠ p.table) : insertWalker.dimension s p r st x = none := by
  simp [insertWalker, single, hx]

mutual
/-- Below one field, the insert walk emits nothing for, and does not
touch the recorded id of, a table outside the reachable set. -/
theorem insertField_off (r : Run) :
    ∀ (f : Field) (st : SK × Bank) (t : Tables),
      t ∉ reachF insertWalker r f →
      (traverseField insertWalker r f st).1 t = none ∧
        ((traverseField insertWalker r f st).2).1 t = st.1 t
  | .int _ _, _, _, _ => ⟨rfl, rfl⟩
  | .text _ _, _, _, _ => ⟨rfl, rfl⟩
  | .fk n tb ck child opt, st, t, ht => by
      simp only [traverseField]
      cases hg : extendOk insertWalker r opt with
      | false => simp [hg, emptyTR]
      | true =>
          rw [reachF, hg] at ht
          simp only [if_true, List.mem_cons, not_or] at ht
          have hnt : t ≠ tb := ht.1
          have hnc : t ∉ reachS insertWalker r child := ht.2
          have hcoff : ((insertWalker.condition child ⟨n, tb, ck, child, opt⟩ r st).2).1 t
              = st.1 t := insertCondition_sk_off _ _ r st t hnt
          cases hb : (insertWalker.condition child ⟨n, tb, ck, child, opt⟩ r st).1 with
          | false => simpa [hg, hb, emptyTR] using hcoff
          | true =>
              have hrec := insertFields_off r child
                (insertWalker.condition child ⟨n, tb, ck, child, opt⟩ r st).2 t hnc
              refine ⟨?_, ?_⟩
              · simp only [hg, hb, if_true]
                exact override_none _ _ t hrec.1 (insertDim_off _ _ r _ t hnt)
              · simpa [hg, hb] using hrec.2.trans hcoff
/-- In a schema, the insert walk emits nothing for, and does not touch
the recorded id of, a table outside the reachable set. -/
theorem insertFields_off (r : Run) :
    ∀ (s : Sch) (st : SK × Bank) (t : Tables),
      t ∉ reachS insertWalker r s →
      (traverseFields insertWalker r s st).1 t = none ∧
        ((traverseFields insertWalker r s st).2).1 t = st.1 t
  | .nil, _, _, _ => ⟨rfl, rfl⟩
  | .cons f fs, st, t, ht => by
      rw [reachS] at ht
      simp only [List.mem_append, not_or] at ht
      have h1 := insertField_off r f st t ht.1
      have h2 := insertFields_off r fs (traverseField insertWalker r f st).2 t ht.2
      simp only [traverseFields]
      exact ⟨override_none _ _ t h1.1 h2.1, h2.2.trans h1.2⟩
end

/-- `override` always shows a key the right object sets. -/
theorem override_single_self (a : TraverseReturn) (t : Tables) (s : String) :
    override a (single t s) t = some s := by
  simp [override, single]

/-! ### C2 — the insert emitter at a dimension node -/

/-- C2: at a reached dimension node (the optional guard passes, the
table is not the fact table): with an id from the lookup phase the walk
emits nothing and leaves both the key map and the bank untouched; on a
cache hit it records the cached id, emits nothing, and leaves the bank
untouched; only on a miss does it emit
`INSERT INTO t (cols, child_key) VALUES (vals, id)` for this dimension,
with the freshly allocated id `next_id + 1` appended as the value of
the child-key column. -/
theorem insertRun_dimension_node (r : Run) (n ck : String) (t : Tables) (child : Sch)
    (opt : Option RunKey) (sk : SK) (bank : Bank)
    (hreach : optOk r opt = true) (hfact : t ≠ Tables.Fact) :
    (∀ id, sk t = some id →
        traverseField insertWalker r (.fk n t ck child opt) (sk, bank) =
          (emptyTR, (sk, bank))) ∧
    (∀ id, sk t = none →
        bank.cache (tname t ++ createCacheKey child r) = some id →
        traverseField insertWalker r (.fk n t ck child opt) (sk, bank) =
          (emptyTR, (updSK sk t id, bank))) ∧
    (sk t = none →
        bank.cache (tname t ++ createCacheKey child r) = none →
        (traverseField insertWalker r (.fk n t ck child opt) (sk, bank)).1 t =
          some (insertStmt t
            (fieldNames child ++ [ck])
            (fieldValues child r
                ((traverseFields insertWalker r child
                    (updSK sk t (bank.keys t + 1),
                      (Bank.requestKey t (createCacheKey child r) bank).2)).2).1 ++
              [valueOrNull (some (toString (bank.keys t + 1)))]))) := by
  have hguard : extendOk insertWalker r opt = true := by
    rw [extendOk_insert]; exact hreach
  refine ⟨?_, ?_, ?_⟩
  · intro id h
    have hcond : insertWalker.condition child ⟨n, t, ck, child, opt⟩ r (sk, bank) =
        (false, (sk, bank)) := by
      simp [insertWalker, hfact, h]
    simp [traverseField, hguard, hcond, emptyTR]
  · intro id h hc
    have hreq : Bank.requestKey t (createCacheKey child r) bank = ((id, true), bank) := by
      simp [Bank.requestKey, hc]
    have hcond : insertWalker.condition child ⟨n, t, ck, child, opt⟩ r (sk, bank) =
        (false, (updSK sk t id, bank)) := by
      simp [insertWalker, hfact, h, hreq]
    simp [traverseField, hguard, hcond, emptyTR]
  · intro h hc
    have hreq : Bank.requestKey t (createCacheKey child r) bank =
        ((bank.keys t + 1, false), (Bank.requestKey t (createCacheKey child r) bank).2) := by
      simp [Bank.requestKey, hc]
    have hcond : insertWalker.condition child ⟨n, t, ck, child, opt⟩ r (sk, bank) =
        (true, (updSK sk t (bank.keys t + 1),
          (Bank.requestKey t (createCacheKey child r) bank).2)) := by
      simp only [insertWalker, hfact, if_neg hfact, h]
      rw [hreq]
      simp
    have hpres : ((traverseFields insertWalker r child
        (updSK sk t (bank.keys t + 1),
          (Bank.requestKey t (createCacheKey child r) bank).2)).2).1 t =
        some (bank.keys t + 1) :=
      insertFields_preserve r child _ t _ (by simp [updSK])
    have hdim0 : insertWalker.dimension child ⟨n, t, ck, child, opt⟩ r
        (traverseFields insertWalker r child
          (updSK sk t (bank.keys t + 1),
            (Bank.requestKey t (createCacheKey child r) bank).2)).2 =
      single t (insertStmt t (fieldNames child ++ [ck])
        (fieldValues child r
            ((traverseFields insertWalker r child
                (updSK sk t (bank.keys t + 1),
                  (Bank.requestKey t (createCacheKey child r) bank).2)).2).1 ++
          [valueOrNull ((((traverseFields insertWalker r child
                (updSK sk t (bank.keys t + 1),
                  (Bank.requestKey t (createCacheKey child r) bank).2)).2).1 t).map
              toString)])) := rfl
    rw [hpres] at hdim0
    simp only [Option.map_some'] at hdim0
    simp only [traverseField, hguard, if_true, hcond]
    rw [hdim0]
    exact override_single_self _ t _

/-- A concrete record for the witnesses (the fixture of
`insertTestRun`, error message simplified). -/
def wrun : Run :=
  ⟨10, 27, some "boom", "t1.23.415", "DBTest", "0.0.1", "t1.234",
    "TestBrowser", "/db/test", "https://testdb.aau.dk", ⟩

/-- Witness for C2: the miss case at the `ErrorMessage` node on the
fresh bank and empty lookup map. -/
theorem insertRun_dimension_node_witness :
    optOk wrun (some RunKey.errorMessage) = true ∧
    Tables.ErrorMessage ≠ Tables.Fact ∧
    emptySK Tables.ErrorMessage = none ∧
    bankInit.cache (tname Tables.ErrorMessage ++
      createCacheKey errorMessageChild wrun) = none ∧
    (traverseField insertWalker wrun
        (.fk "error_message" Tables.ErrorMessage "id" errorMessageChild
          (some RunKey.errorMessage)) (emptySK, bankInit)).1 Tables.ErrorMessage =
      some (insertStmt Tables.ErrorMessage
        (fieldNames errorMessageChild ++ ["id"])
        (fieldValues errorMessageChild wrun
            ((traverseFields insertWalker wrun errorMessageChild
                (updSK emptySK Tables.ErrorMessage (bankInit.keys Tables.ErrorMessage + 1),
                  (Bank.requestKey Tables.ErrorMessage
                    (createCacheKey errorMessageChild wrun) bankInit).2)).2).1 ++
          [valueOrNull (some (toString (bankInit.keys Tables.ErrorMessage + 1)))])) :=
  ⟨rfl, by decide, rfl, rfl,
    (insertRun_dimension_node wrun "error_message" "id" Tables.ErrorMessage
        errorMessageChild (some RunKey.errorMessage) emptySK bankInit rfl
        (by decide)).2.2 rfl rfl⟩

/-! ### C6 — absent optional dimension -/

/-- C6: when `errorMessage` is absent the lookup map cannot contain an
id for `ErrorMessage` (the lookup emits no query for it), the insert
walk emits no `INSERT` for the `ErrorMessage` dimension, and the fact
`INSERT` renders the `error_message` foreign-key column as the bare
token `NULL`. -/
theorem insertRun_optional_absent (r : Run) (sk : SK) (bank : Bank)
    (hr : r.errorMessage = none) (hsk : sk Tables.ErrorMessage = none) :
    getKeys schema dummyParent r Tables.ErrorMessage = none ∧
    (insertRun schema dummyParent r (sk, bank)).1 Tables.ErrorMessage = none ∧
    ∃ vals, (insertRun schema dummyParent r (sk, bank)).1 Tables.Fact =
        some (insertStmt Tables.Fact
          ["score", "status_code", "error_message", "plugin_id", "browser_id", "url_id"]
          vals) ∧ vals.length = 6 ∧ vals.get? 2 = some "NULL" := by
  have hnotin : Tables.ErrorMessage ∉ reachS insertWalker r schema := by
    simp [reachS, reachF, extendOk_insert, optOk, runHas, hr, schema, pluginChild,
      pluginNameChild, browserChild, browserNameChild, urlChild, domainChild,
      errorMessageChild]
  have hoff := insertFields_off r schema (sk, bank) Tables.ErrorMessage hnotin
  have hskF : ((traverseFields insertWalker r schema (sk, bank)).2).1 Tables.ErrorMessage
      = none := hoff.2.trans hsk
  refine ⟨?_, ?_, ?_⟩
  · cases hgk : r.errorMessage with
    | none =>
        simp [getKeys, traverseSchema, traverseFields, traverseField, getKeysWalker,
          extendOk, runHas, hgk, schema, pluginChild, pluginNameChild, browserChild,
          browserNameChild, urlChild, domainChild, errorMessageChild, override, single,
          emptyTR]
    | some e => rw [hr] at hgk; cases hgk
  · simp only [insertRun, traverseSchema]
    exact override_none _ _ _ hoff.1 (by simp [insertWalker, single, dummyParent])
  · refine ⟨fieldValues schema r ((traverseFields insertWalker r schema (sk, bank)).2).1,
      ?_, ?_, ?_⟩
    · simp only [insertRun, traverseSchema]
      have hfe : insertWalker.fact schema dummyParent r
          (traverseFields insertWalker r schema (sk, bank)).2 =
        single Tables.Fact (insertStmt Tables.Fact (fieldNames schema)
          (fieldValues schema r
            ((traverseFields insertWalker r schema (sk, bank)).2).1)) := rfl
      rw [hfe, show fieldNames schema =
        ["score", "status_code", "error_message", "plugin_id", "browser_id", "url_id"]
        from by decide]
      exact override_single_self _ _ _
    · simp [fieldValues, schema]
    · have hv : (fieldValues schema r
          ((traverseFields insertWalker r schema (sk, bank)).2).1).get? 2 =
        some (valueOrNull
          (Option.map toString
            (((traverseFields insertWalker r schema (sk, bank)).2).1
              Tables.ErrorMessage))) := by
        simp [fieldValues, schema]
      rw [hv, hskF]
      simp [valueOrNull]

/-- The witness record: the fixture without its error message. -/
def wrunNoErr : Run :=
  ⟨10, 27, none, "t1.23.415", "DBTest", "0.0.1", "t1.234",
    "TestBrowser", "/db/test", "https://testdb.aau.dk"⟩

/-- Witness for C6 on the fixture record without `errorMessage`, the
empty lookup map and the fresh bank. -/
theorem insertRun_optional_absent_witness :
    wrunNoErr.errorMessage = none ∧
    emptySK Tables.ErrorMessage = none ∧
    (getKeys schema dummyParent wrunNoErr Tables.ErrorMessage = none ∧
      (insertRun schema dummyParent wrunNoErr (emptySK, bankInit)).1
          Tables.ErrorMessage = none ∧
      ∃ vals, (insertRun schema dummyParent wrunNoErr (emptySK, bankInit)).1
            Tables.Fact =
          some (insertStmt Tables.Fact
            ["score", "status_code", "error_message", "plugin_id", "browser_id",
              "url_id"] vals) ∧ vals.length = 6 ∧ vals.get? 2 = some "NULL") :=
  ⟨rfl, rfl, insertRun_optional_absent wrunNoErr emptySK bankInit rfl rfl⟩

/-! ### C8 — the lookup emitter -/

/-- Spec-side enumeration: every foreign-key node of a subtree with the
table it hangs from — `(parent_table, (fk_column, child_table,
child_key))` — in emission order. -/
def fkNodes : Sch → String → List (String × String × Tables × String)
  | .nil, _ => []
  | .cons (.fk n t ck child _) fs, tbl =>
      (tbl, n, t, ck) :: (fkNodes child (tname t) ++ fkNodes fs tbl)
  | .cons (.int _ _) fs, tbl => fkNodes fs tbl
  | .cons (.text _ _) fs, tbl => fkNodes fs tbl

/-- Spec-side formatting of one join:
`INNER JOIN child ON parent.fk_col=child.child_key`. -/
def specJoinClause : String × String × Tables × String → String
  | (p, n, t, ck) => "INNER JOIN " ++ tname t ++ " ON " ++ p ++ "." ++ n ++ "=" ++
      tname t ++ "." ++ ck

/-- Spec-side enumeration: every leaf `Int`/`Text` column of a subtree
with the table it lives in, recursing through foreign keys. -/
def leafCols : Sch → String → List (String × String × RunKey)
  | .nil, _ => []
  | .cons (.int n k) fs, tbl => (tbl, n, k) :: leafCols fs tbl
  | .cons (.text n k) fs, tbl => (tbl, n, k) :: leafCols fs tbl
  | .cons (.fk _ t _ child _) fs, tbl => leafCols child (tname t) ++ leafCols fs tbl

/-- Spec-side formatting of one `WHERE` conjunct: the leaf column
equated against the record value through `valueOrNull`. -/
def specWhereClause (r : Run) : String × String × RunKey → String
  | (tbl, n, k) => tbl ++ "." ++ n ++ "=" ++ valueOrNull (getRun r k)

/-- The source join builder produces exactly one clause per foreign-key
node of the subtree, in the spec format. -/
theorem innerJoinAux_spec : ∀ (s : Sch) (tbl : String),
    innerJoinAux s tbl = (fkNodes s tbl).map specJoinClause
  | .nil, _ => rfl
  | .cons (.int n k) fs, tbl => innerJoinAux_spec fs tbl
  | .cons (.text n k) fs, tbl => innerJoinAux_spec fs tbl
  | .cons (.fk n t ck child opt) fs, tbl => by
      simp only [innerJoinAux, fkNodes, List.map_cons, List.map_append,
        innerJoinAux_spec child (tname t), innerJoinAux_spec fs tbl, specJoinClause]

/-- The source `WHERE` builder produces exactly one conjunct per leaf
column of the subtree, in the spec format. -/
theorem joinWhereAux_spec (r : Run) : ∀ (s : Sch) (tbl : String),
    joinWhereAux r s tbl = (leafCols s tbl).map (specWhereClause r)
  | .nil, _ => rfl
  | .cons (.int n k) fs, tbl => by
      simp only [joinWhereAux, leafCols, List.map_cons, joinWhereAux_spec r fs tbl,
        specWhereClause]
  | .cons (.text n k) fs, tbl => by
      simp only [joinWhereAux, leafCols, List.map_cons, joinWhereAux_spec r fs tbl,
        specWhereClause]
  | .cons (.fk n t ck child opt) fs, tbl => by
      simp only [joinWhereAux, leafCols, List.map_append,
        joinWhereAux_spec r child (tname t), joinWhereAux_spec r fs tbl]

/-- C8: for every record, `getKeys` emits no query for the fact table
and exactly one lookup query per reached dimension (`ErrorMessage` only
when the record field is present); each query is exactly
`SELECT MAX(T.child_key) AS id FROM T` followed by one inner-join
clause per foreign-key node of the subtree and a `WHERE` clause
equating every leaf column through `valueOrNull` — `MAX`, not
`LIMIT 1`, and no `COALESCE` anywhere in the shape. -/
theorem getKeys_lookup_spec (r : Run) :
    getKeys schema dummyParent r Tables.Fact = none ∧
    getKeys schema dummyParent r Tables.ErrorMessage =
      (if r.errorMessage.isSome
        then some (getKeysQuery errorMessageChild Tables.ErrorMessage "id" r)
        else none) ∧
    getKeys schema dummyParent r Tables.Plugin =
      some (getKeysQuery pluginChild Tables.Plugin "id" r) ∧
    getKeys schema dummyParent r Tables.PluginName =
      some (getKeysQuery pluginNameChild Tables.PluginName "id" r) ∧
    getKeys schema dummyParent r Tables.Browser =
      some (getKeysQuery browserChild Tables.Browser "id" r) ∧
    getKeys schema dummyParent r Tables.BrowserName =
      some (getKeysQuery browserNameChild Tables.BrowserName "id" r) ∧
    getKeys schema dummyParent r Tables.Url =
      some (getKeysQuery urlChild Tables.Url "id" r) ∧
    getKeys schema dummyParent r Tables.Domain =
      some (getKeysQuery domainChild Tables.Domain "id" r) ∧
    (∀ (s : Sch) (t : Tables) (idn : String),
      getKeysQuery s t idn r =
        "SELECT MAX(" ++ tname t ++ "." ++ idn ++ ") AS id FROM " ++
          joinSep " " (tname t :: (fkNodes s (tname t)).map specJoinClause) ++
          " WHERE " ++
          joinSep " AND " ((leafCols s (tname t)).map (specWhereClause r))) := by
  have hq : ∀ (s : Sch) (t : Tables) (idn : String),
      getKeysQuery s t idn r =
        "SELECT MAX(" ++ tname t ++ "." ++ idn ++ ") AS id FROM " ++
          joinSep " " (tname t :: (fkNodes s (tname t)).map specJoinClause) ++
          " WHERE " ++
          joinSep " AND " ((leafCols s (tname t)).map (specWhereClause r)) := by
    intro s t idn
    rw [getKeysQuery, innerJoin, joinWhere, innerJoinAux_spec, joinWhereAux_spec]
  refine ⟨?_, ?_, ?_, ?_, ?_, ?_, ?_, ?_, hq⟩ <;>
    cases hgk : r.errorMessage <;>
      simp [getKeys, traverseSchema, traverseFields, traverseField, getKeysWalker,
        extendOk, runHas, hgk, schema, pluginChild, pluginNameChild, browserChild,
        browserNameChild, urlChild, domainChild, errorMessageChild, override, single,
        emptyTR]

/-! ### C9 — one statement per table, later emissions win -/

/-- Replaying over an append splits into two replays. -/
theorem applyEmits_append (a : TraverseReturn) (l1 l2 : List (Tables × String)) :
    applyEmits a (l1 ++ l2) = applyEmits (applyEmits a l1) l2 :=
  List.foldl_append _ _ _ _

/-- Spreading over a replayed object replays over the spread base. -/
theorem override_applyEmits :
    ∀ (l : List (Tables × String)) (a b : TraverseReturn),
      override a (applyEmits b l) = applyEmits (override a b) l
  | [], _, _ => rfl
  | e :: l, a, b => by
      have step : override a (applyEmit b e) = applyEmit (override a b) e := by
        funext x
        by_cases hx : x = e.1 <;> simp [applyEmit, override, hx]
      calc override a (applyEmits b (e :: l))
          = override a (applyEmits (applyEmit b e) l) := rfl
        _ = applyEmits (override a (applyEmit b e)) l := override_applyEmits l a _
        _ = applyEmits (applyEmit (override a b) e) l := by rw [step]

/-- Spreading the empty object is the identity. -/
theorem override_emptyTR (a : TraverseReturn) : override a emptyTR = a := rfl

/-- Every table is in the enumeration. -/
theorem mem_allTables (t : Tables) : t ∈ allTables := by
  cases t <;> simp [allTables]

/-- Replaying the entries drawn from a list of tables. -/
theorem applyEmits_filterMap (m : TraverseReturn) :
    ∀ (L : List Tables) (a : TraverseReturn) (x : Tables),
      applyEmits a (L.filterMap (fun t => (m t).map (fun s => (t, s)))) x =
        if x ∈ L then override a m x else a x
  | [], a, x => by simp [applyEmits]
  | u :: L, a, x => by
      cases hu : m u with
      | none =>
          rw [List.filterMap_cons]
          simp only [hu, Option.map_none']
          rw [applyEmits_filterMap m L a x]
          by_cases hxu : x = u
          · subst hxu
            by_cases hxL : x ∈ L <;> simp [hxL, override, hu]
          · simp [List.mem_cons, hxu]
      | some s =>
          rw [List.filterMap_cons]
          simp only [hu, Option.map_some']
          have : applyEmits a ((u, s) :: L.filterMap
              (fun t => (m t).map (fun s => (t, s)))) =
            applyEmits (applyEmit a (u, s)) (L.filterMap
              (fun t => (m t).map (fun s => (t, s)))) := rfl
          rw [this, applyEmits_filterMap m L _ x]
          by_cases hxL : x ∈ L
          · simp only [hxL, if_true, List.mem_cons, or_true]
            cases hmx : m x with
            | some s2 => simp [override, hmx]
            | none =>
                have hxu : x ≠ u := by
                  intro he
                  rw [he, hu] at hmx
                  cases hmx
                simp [override, hmx, applyEmit, hxu]
          · by_cases hxu : x = u
            · subst hxu
              simp [hxL, applyEmit, override, hu]
            · simp [hxL, List.mem_cons, hxu, applyEmit]

/-- Replaying the entries of an object equals spreading it. -/
theorem applyEmits_trEntries (a m : TraverseReturn) :
    applyEmits a (trEntries m) = override a m := by
  funext x
  rw [trEntries, applyEmits_filterMap m allTables a x, if_pos (mem_allTables x)]

/-- Joining two replays from the empty object. -/
theorem applyEmits_empty_append (l1 l2 : List (Tables × String)) :
    override (applyEmits emptyTR l1) (applyEmits emptyTR l2) =
      applyEmits emptyTR (l1 ++ l2) := by
  rw [applyEmits_append, override_applyEmits, override_emptyTR]

mutual
/-- The object built while traversing one field is the replay of the
chronological emission list of that field. -/
theorem traceField_eq (w : Walker V σ) (v : V) :
    ∀ (f : Field) (st : σ),
      traverseField w v f st =
        (applyEmits emptyTR (traceField w v f st).1, (traceField w v f st).2)
  | .int _ _, _ => rfl
  | .text _ _, _ => rfl
  | .fk n t ck child opt, st => by
      cases hg : extendOk w v opt with
      | false => simp [traverseField, traceField, hg, applyEmits]
      | true =>
          cases hb : (w.condition child ⟨n, t, ck, child, opt⟩ v st).1 with
          | false => simp [traverseField, traceField, hg, hb, applyEmits]
          | true =>
              have ih := traceFields_eq w v child
                (w.condition child ⟨n, t, ck, child, opt⟩ v st).2
              simp only [traverseField, traceField, hg, hb, if_true]
              rw [ih]
              exact Prod.ext (by
                rw [applyEmits_append, applyEmits_trEntries]) rfl
/-- The object built while traversing a schema is the replay of the
chronological emission list of that schema. -/
theorem traceFields_eq (w : Walker V σ) (v : V) :
    ∀ (s : Sch) (st : σ),
      traverseFields w v s st =
        (applyEmits emptyTR (traceFields w v s st).1, (traceFields w v s st).2)
  | .nil, _ => rfl
  | .cons f fs, st => by
      have ih1 := traceField_eq w v f st
      simp only [traverseFields, traceFields]
      rw [ih1]
      have ih2 := traceFields_eq w v fs (traceField w v f st).2
      rw [ih2]
      exact Prod.ext (applyEmits_empty_append _ _) rfl
end

/-- A whole walk builds the replay of its chronological emission list. -/
theorem traverseSchema_eq_trace (w : Walker V σ) (s : Sch) (p : FKView) (v : V)
    (st : σ) :
    traverseSchema w s p v st =
      (applyEmits emptyTR (traceSchema w s p v st).1, (traceSchema w s p v st).2) := by
  rw [traverseSchema, traceSchema, traceFields_eq]
  exact Prod.ext (by rw [applyEmits_append, applyEmits_trEntries]) rfl

/-- A replay shows, for each table, exactly the last emission that
targeted it. -/
theorem applyEmits_lastEmit :
    ∀ (l : List (Tables × String)) (a : TraverseReturn) (t : Tables),
      applyEmits a l t =
        match lastEmit t l with
        | some s => some s
        | none => a t
  | [], _, _ => rfl
  | e :: l, a, t => by
      have ih := applyEmits_lastEmit l (applyEmit a e) t
      have hstep : applyEmits a (e :: l) = applyEmits (applyEmit a e) l := rfl
      rw [hstep, ih]
      cases hl : lastEmit t l with
      | some s =>
          have hne : l.filter (fun e2 => e2.1 = t) ≠ [] := by
            intro hnil
            rw [lastEmit, hnil] at hl
            cases hl
          have hcons : lastEmit t (e :: l) = lastEmit t l := by
            rw [lastEmit, lastEmit, List.filter_cons]
            cases hfl : l.filter (fun e2 => e2.1 = t) with
            | nil => exact absurd hfl hne
            | cons c cs =>
                by_cases he : e.1 = t
                · simp [he, List.getLast?_cons_cons]
                · simp [he]
          rw [hcons, hl]
      | none =>
          have hnil : l.filter (fun e2 => e2.1 = t) = [] := by
            rcases hfl : l.filter (fun e2 => e2.1 = t) with _ | ⟨c, cs⟩
            · exact hfl
            · rw [lastEmit, hfl] at hl
              simp [List.getLast?] at hl
          have hifc : lastEmit t (e :: l) =
              if e.1 = t then some e.2 else none := by
            rw [lastEmit, List.filter_cons, hnil]
            by_cases he : e.1 = t <;> simp [he]
          rw [hifc]
          by_cases he : e.1 = t
          · simp [he, applyEmit]
          · have het : ¬ t = e.1 := fun h2 => he h2.symm
            simp [he, applyEmit, het]

/-- A replay from the empty object is exactly the last emission per
table. -/
theorem applyEmits_empty_lastEmit (l : List (Tables × String)) (t : Tables) :
    applyEmits emptyTR l t = lastEmit t l := by
  rw [applyEmits_lastEmit]
  cases lastEmit t l <;> rfl

/-- C9: each of the four traversal-generated emitters returns a map
holding at most one SQL string per table, namely the last emission that
targeted the table during the walk — later emissions overwrite earlier
ones. -/
theorem traversal_last_emission_wins (r : Run) (st : SK × Bank) (cs : Bool)
    (t : Tables) :
    (insertRun schema dummyParent r st).1 t =
      lastEmit t (traceSchema insertWalker schema dummyParent r st).1 ∧
    getKeys schema dummyParent r t =
      lastEmit t (traceSchema getKeysWalker schema dummyParent r ()).1 ∧
    compileTables cs schema dummyParent t =
      lastEmit t (traceSchema (compileTablesWalker cs) schema dummyParent () ()).1 ∧
    dropTables schema dummyParent t =
      lastEmit t (traceSchema dropTablesWalker schema dummyParent () ()).1 := by
  refine ⟨?_, ?_, ?_, ?_⟩ <;>
    simp only [insertRun, getKeys, compileTables, dropTables,
      traverseSchema_eq_trace] <;>
    rw [applyEmits_empty_lastEmit]

/-! ### C10 — the query executor -/

/-- Connection-level effects of `DB.query` (begin transaction,
rollback, release via `conn.end`). -/
inductive DBAction : Type where
  | beginTx | rollback | release
deriving DecidableEq

/-- Outcomes supplied by the driver for one executor call: connection
acquisition, each query submission, validation, and commit. -/
structure Driver (β γ : Type) : Type where
  acquire : Except String Unit
  exec : String → Except String β
  validator : β → Except String γ
  commitRes : Except String Unit

/-- The fan-out over `Object.entries(queries)`: each statement runs,
its raw result passes through the validator and the mapper; the
`Promise.all` fails with the first failure. -/
def runQueries (d : Driver β γ) (mp : γ → δ) :
    List (Tables × String) → Except String (List (Tables × δ))
  | [] => .ok []
  | (t, q) :: rest =>
      match d.exec q with
      | .error e => .error e
      | .ok raw =>
          match d.validator raw with
          | .error e => .error e
          | .ok x =>
              match runQueries d mp rest with
              | .error e => .error e
              | .ok xs => .ok ((t, mp x) :: xs)

/-- The final `reduce` into a table-keyed object. -/
def toResults (l : List (Tables × δ)) : Tables → Option δ :=
  l.foldl (fun m p => fun y => if y = p.1 then some p.2 else m y) (fun _ => none)

/-- Executor state: the chronological connection actions and whether
`conn` is non-null. -/
def ExecSt : Type := List DBAction × Bool

/-- The executor computation: exceptions plus the executor state. -/
def EM (α : Type) : Type := ExecSt → Except String α × ExecSt

/-- Return. -/
def emPure (a : α) : EM α := fun st => (.ok a, st)

/-- `throw`. -/
def emThrow (e : String) : EM α := fun st => (.error e, st)

/-- Sequencing; an exception short-circuits but keeps the state. -/
def emBind (x : EM α) (f : α → EM β) : EM β := fun st =>
  match x st with
  | (.error e, st2) => (.error e, st2)
  | (.ok a, st2) => f a st2

/-- A driver outcome as a computation. -/
def emLift (x : Except String α) : EM α := fun st => (x, st)

/-- Log one connection action. -/
def emAct (a : DBAction) : EM Unit := fun st => (.ok (), (st.1 ++ [a], st.2))

/-- `conn = await this.pool.getConnection()`: on success the `conn`
variable becomes non-null. -/
def emAcquire (d : Driver β γ) : EM Unit := fun st =>
  match d.acquire with
  | .ok _ => (.ok (), (st.1, true))
  | .error e => (.error e, st)

/-- `if (conn !== null) ...` -/
def emIfConn (m : EM Unit) : EM Unit := fun st =>
  if st.2 then m st else (.ok (), st)

/-- `try { body } catch (e) { hnd }`. -/
def emTry (body : EM α) (hnd : String → EM α) : EM α := fun st =>
  match body st with
  | (.error e, st2) => hnd e st2
  | (.ok a, st2) => (.ok a, st2)

/-- `try { body } finally { fin }` with a non-throwing finaliser. -/
def emFinally (body : EM α) (fin : EM Unit) : EM α := fun st =>
  match body st with
  | (res, st2) => (res, (fin st2).2)

/-- `DB.query`: acquire a connection, begin a transaction, run all
statements, commit and return the keyed results; on any error roll
back (when a connection exists) and rethrow; release the connection on
every exit path on which one was acquired. -/
def queryModel (d : Driver β γ) (mp : γ → δ) (qs : List (Tables × String)) :
    Except String (Tables → Option δ) × ExecSt :=
  emFinally
    (emTry
      (emBind (emAcquire d) (fun _ =>
        emBind (emAct .beginTx) (fun _ =>
          emBind (emLift (runQueries d mp qs)) (fun rs =>
            emBind (emLift d.commitRes) (fun _ =>
              emPure (toResults rs))))))
      (fun e => emBind (emIfConn (emAct .rollback)) (fun _ => emThrow e)))
    (emIfConn (emAct .release))
    ([], false)

/-- C10: whatever single step of one executor call fails — connection
acquisition, a submitted query, validation, or commit — the executor
rolls the transaction back (when a connection exists), propagates that
same exception to the caller, and releases the connection on every
path on which one was acquired; on success it commits, releases, and
returns the keyed results. -/
theorem query_executor_spec (d : Driver β γ) (mp : γ → δ)
    (qs : List (Tables × String)) :
    (∀ e, d.acquire = .error e →
        queryModel d mp qs = (.error e, ([], false))) ∧
    (∀ e, d.acquire = .ok () → runQueries d mp qs = .error e →
        queryModel d mp qs =
          (.error e, ([.beginTx, .rollback, .release], true))) ∧
    (∀ e rs, d.acquire = .ok () → runQueries d mp qs = .ok rs →
        d.commitRes = .error e →
        queryModel d mp qs =
          (.error e, ([.beginTx, .rollback, .release], true))) ∧
    (∀ rs, d.acquire = .ok () → runQueries d mp qs = .ok rs →
        d.commitRes = .ok () →
        queryModel d mp qs =
          (.ok (toResults rs), ([.beginTx, .release], true))) ∧
    (d.acquire = .ok () → DBAction.release ∈ (queryModel d mp qs).2.1) := by
  refine ⟨?_, ?_, ?_, ?_, ?_⟩
  · intro e ha
    simp [queryModel, emFinally, emTry, emBind, emAcquire, emAct, emIfConn, emLift,
      emPure, emThrow, ha]
  · intro e ha hq
    simp [queryModel, emFinally, emTry, emBind, emAcquire, emAct, emIfConn, emLift,
      emPure, emThrow, ha, hq]
  · intro e rs ha hq hc
    simp [queryModel, emFinally, emTry, emBind, emAcquire, emAct, emIfConn, emLift,
      emPure, emThrow, ha, hq, hc]
  · intro rs ha hq hc
    simp [queryModel, emFinally, emTry, emBind, emAcquire, emAct, emIfConn, emLift,
      emPure, emThrow, ha, hq, hc]
  · intro ha
    rcases hq : runQueries d mp qs with e | rs
    · simp [queryModel, emFinally, emTry, emBind, emAcquire, emAct, emIfConn, emLift,
        emPure, emThrow, ha, hq]
    · rcases hc : d.commitRes with e | u
      · simp [queryModel, emFinally, emTry, emBind, emAcquire, emAct, emIfConn,
          emLift, emPure, emThrow, ha, hq, hc]
      · simp [queryModel, emFinally, emTry, emBind, emAcquire, emAct, emIfConn,
          emLift, emPure, emThrow, ha, hq, hc]

/-- A driver whose every query submission fails. -/
def failDriver : Driver Nat Nat :=
  ⟨.ok (), fun _ => .error "boom", fun x => .ok x, .ok ()⟩

/-- Witness for C10: on a driver whose query fails, the executor rolls
back, releases, and propagates the query error. -/
theorem query_executor_spec_witness :
    failDriver.acquire = .ok () ∧
    runQueries failDriver (fun x : Nat => x) [(Tables.Fact, "q")] = .error "boom" ∧
    queryModel failDriver (fun x : Nat => x) [(Tables.Fact, "q")] =
      (.error "boom", ([.beginTx, .rollback, .release], true)) :=
  ⟨rfl, rfl,
    (query_executor_spec failDriver (fun x : Nat => x) [(Tables.Fact, "q")]).2.1
      "boom" rfl rfl⟩

end EnergyLabel
